import Mathlib

/-!
Verification of the sbfi Brainfuck compiler/interpreter (src/sbfi.c, src/sbfi.h).

The development shallowly embeds the pipeline of `main`:
`check_src` (validator), `strip_comments` (normalizer), `optim_code`
(run-length folding, peephole rewriting, pointer-movement coalescing,
encoding), `match_brackets` (jump resolution) and `exec_prog` (the VM),
as executable Lean functions, and proves or refutes the specification's
claims about them.

C arrays are modelled as total functions together with explicit logical
and allocated lengths; an out-of-bounds `mov` write (which is undefined
behavior in C) is recorded in a flag and dropped.  Cell values are
integers kept in `[0, 256)` by `Int.emod 256`, mirroring the `unsigned
char` CELL type.
-/

/-- Pointwise update of a total function, used to model array stores. -/
def updf {ι : Type} {α : Type} [DecidableEq ι] (f : ι → α) (k : ι) (v : α) : ι → α :=
  fun x => if x = k then v else f x

/-- Bracket weight of a source character: `[` counts +1, `]` counts -1,
everything else 0.  This is the quantity accumulated in `n` by `check_src`. -/
def deltaC (c : Char) : Int :=
  if c = '[' then 1 else if c = ']' then -1 else 0

/-- Forward scan of `check_src` (sbfi.c:111-112):
`for (i = 0, n = 0; n >= 0 && code[i]; ++i) n += delta(code[i]);`
returns the loop's final `(i, n)`. -/
def csFwd : List Char → Nat → Int → Nat × Int
  | [], i, n => (i, n)
  | c :: rest, i, n => if n < 0 then (i, n) else csFwd rest (i + 1) (n + deltaC c)

/-- Sum of bracket weights of the suffix of `s` starting at index `q`. -/
def sufSum (s : List Char) (q : Nat) : Int :=
  ((s.drop q).map deltaC).sum

/-- Backward scan of `check_src` (sbfi.c:117-118):
`for (n = 0; n <= 0; --i) n += delta(code[i]);` started at `i = strlen(code)`,
returning the final `i`.  The index is an `int` in C and may end at -1. -/
def csBwd (s : List Char) : Nat → Int → Int → Int
  | 0, i, _ => i
  | fuel + 1, i, n =>
    if n > 0 then i
    else csBwd s fuel (i - 1) (n + deltaC (s.getD i.toNat (Char.ofNat 0)))

/-- The validator `check_src` (sbfi.c:86-121).  On a bracket mismatch it
reports the final value of the scan index `i` (an `int`). -/
def check_src (s : List Char) : Except Int Unit :=
  let fwd := csFwd s 0 0
  if fwd.2 < 0 then .error (fwd.1 : Int)
  else if fwd.2 > 0 then .error (csBwd s (s.length + 2) (fwd.1 : Int) 0)
  else .ok ()

/-- The normalizer `strip_comments` (sbfi.c:123-134): keep exactly the eight
command characters. -/
def strip_comments (s : List Char) : List Char :=
  s.filter (fun c => c ∈ ['+', '-', '<', '>', '[', ']', ',', '.'])

/-- First pass of `optim_code` (sbfi.c:170-180): the sign stored in `coeff[i]`. -/
def signOf (c : Char) : Int :=
  if c = '-' ∨ c = '<' then -1 else 1

/-- First pass of `optim_code` (sbfi.c:170-180): `+`/`-` become `c`,
`<`/`>` become `p`. -/
def unify (c : Char) : Char :=
  if c = '+' ∨ c = '-' then 'c'
  else if c = '<' ∨ c = '>' then 'p'
  else c

/-- The per-character transform of sbfi.c:170-180 producing the initial
command/coefficient pairs. -/
def stageA (s : List Char) : List (Char × Int) :=
  s.map (fun c => (unify c, signOf c))

/-- Run-length folding of sbfi.c:182-189: maximal runs of equal `c`/`p`
commands are merged into one slot whose coefficient is the signed sum. -/
def runfold : List (Char × Int) → List (Char × Int)
  | [] => []
  | (c, k) :: rest =>
    let r := runfold rest
    if c = 'c' ∨ c = 'p' then
      match r with
      | (c2, k2) :: t => if c2 = c then (c, k + k2) :: t else (c, k) :: r
      | [] => [(c, k)]
    else (c, k) :: r

/-- Working state of the peephole pass of `optim_code` (sbfi.c:205-266).
`code`/`coeff` are the in-place arrays after run-length folding (logical
length `len`), `mov` is the global pre-move array (sbfi.c:26, allocated with
`alloc = strlen(code)` ints at sbfi.c:148), and `movOOB` records whether a
store to `mov` fell outside its allocation (undefined behavior in C). -/
structure OptArr where
  code : Nat → Char
  coeff : Nat → Int
  len : Nat
  mov : Nat → Int
  alloc : Nat
  movOOB : Bool

/-- Read a character of the working array with C string semantics: indices
at or beyond `len` read the NUL terminator. -/
def getC (s : OptArr) (x : Nat) : Char :=
  if x < s.len then s.code x else Char.ofNat 0

/-- `match_pattern` (sbfi.c:136-141): all characters of `pattern` match the
text starting at index `i`. -/
def matchPat (s : OptArr) : Nat → List Char → Bool
  | _, [] => true
  | i, c :: cs => getC s i = c && matchPat s (i + 1) cs

/-- A store `mov[x] += v`, dropped (and recorded) when `x` is outside the
allocation, as the C store would be an out-of-bounds write. -/
def movWrite (s : OptArr) (x : Nat) (v : Int) : OptArr :=
  if x < s.alloc then { s with mov := updf s.mov x (s.mov x + v) }
  else { s with movOOB := true }

/-- One iteration of the peephole loop body of `optim_code` (sbfi.c:205-266):
the `else if` chain trying, in order, the `[c]`, `[p]`, `[cpcp]` and lone-`p`
rewrites at position `i`. -/
def peepStep (s : OptArr) (i : Nat) : OptArr :=
  if matchPat s i ['[', 'c', ']'] ∧ s.coeff (i + 1) = -1 then
    { s with code := updf (updf (updf s.code i '0') (i + 1) ' ') (i + 2) ' ' }
  else if matchPat s i ['[', 'p', ']'] then
    { s with
      code := updf (updf (updf s.code i 's') (i + 1) ' ') (i + 2) ' ',
      coeff := updf s.coeff i (s.coeff (i + 1)) }
  else if matchPat s i ['[', 'c', 'p', 'c', 'p', ']'] ∧ s.coeff (i + 1) = -1 ∧
      s.coeff (i + 3) = 1 ∧ s.coeff (i + 2) = -s.coeff (i + 4) then
    { s with
      code := updf (updf (updf (updf (updf (updf s.code i 'm') (i + 1) ' ')
        (i + 2) ' ') (i + 3) ' ') (i + 4) ' ') (i + 5) ' ',
      coeff := updf s.coeff i (s.coeff (i + 2)) }
  else if matchPat s i ['p'] then
    movWrite { s with code := updf s.code i ' ' } (i + 1) (s.coeff i)
  else s

/-- The peephole loop `for (i = 0; code[i]; ++i)` of sbfi.c:205-266, run with
fuel `s.len - i`; the working string contains no NUL characters, so the loop
guard is `i < s.len`. -/
def peepLoop : Nat → Nat → OptArr → OptArr
  | 0, _, s => s
  | fuel + 1, i, s => if i < s.len then peepLoop fuel (i + 1) (peepStep s i) else s

/-- The contents of the working arrays as an aligned list of
(command, coefficient, pre-move) triples. -/
def extract (s : OptArr) : List (Char × Int × Int) :=
  (List.range s.len).map (fun k => (s.code k, s.coeff k, s.mov k))

/-- Space removal (sbfi.c:270-280): compact the arrays, dropping the slots
overwritten with spaces. -/
def despace (s : OptArr) : List (Char × Int × Int) :=
  (extract s).filter (fun t => t.1 ≠ ' ')

/-- Bytecode encoding (sbfi.c:288-289): index in `"cp[]0sm.,"` plus one. -/
def encodeChar (c : Char) : Nat :=
  if c = 'c' then 1 else if c = 'p' then 2 else if c = '[' then 3
  else if c = ']' then 4 else if c = '0' then 5 else if c = 's' then 6
  else if c = 'm' then 7 else if c = '.' then 8 else if c = ',' then 9
  else 0

/-- Recursive bracket matcher `match_brackets` (sbfi.c:294-321), with a fuel
parameter for termination (the C function does not terminate on some
unvalidated inputs).  `coeff` is modelled as a total function `Int → Int`
because the top-level call passes `left = -1`.  The scan index `i` starts at
`left + 1`; a left bracket (tag 3) recurses and resumes after the returned
match, a right bracket (tag 4) stores the two jump offsets and returns its
position, and the terminator returns 0. -/
def mbF : Nat → List Nat → (Int → Int) → Int → Nat → (Int → Int) × Int
  | 0, _, coeff, _, _ => (coeff, 0)
  | fuel + 1, code, coeff, left, i =>
    match code.getD i 0 with
    | 0 => (coeff, 0)
    | 3 =>
      let r := mbF fuel code coeff (i : Int) (i + 1)
      mbF fuel code r.1 left (r.2.toNat + 1)
    | 4 => (updf (updf coeff left ((i : Int) - left)) (i : Int) (left - (i : Int)), (i : Int))
    | _ => mbF fuel code coeff left (i + 1)

/-- The top-level call `match_brackets(code, coeff, -1)` of sbfi.c:553, with
enough fuel for any validated program. -/
def match_brackets (code : List Nat) (coeff : Int → Int) : Int → Int :=
  (mbF (code.length + 2) code coeff (-1) 0).1

/-- Result of `optim_code` followed by `match_brackets`: the encoded bytecode
stream, the resolved coefficient array (as a total map over `int` indices),
the pre-move array (with its stale tail beyond the compacted length, which
the executor can read), and the `mov` out-of-bounds flag. -/
structure Compiled where
  bytecode : List Nat
  coeff : Int → Int
  mov : Nat → Int
  movOOB : Bool

/-- The working state at entry of the peephole pass: the folded arrays, a
zeroed `mov` array of allocation size `strlen(code)` (sbfi.c:147-148). -/
def optimS0 (norm : List Char) : OptArr :=
  { code := fun k => ((runfold (stageA norm)).getD k (Char.ofNat 0, 0)).1,
    coeff := fun k => ((runfold (stageA norm)).getD k (Char.ofNat 0, 0)).2,
    len := (runfold (stageA norm)).length,
    mov := fun _ => 0,
    alloc := norm.length,
    movOOB := false }

/-- The working state after the peephole pass. -/
def optimS1 (norm : List Char) : OptArr :=
  peepLoop (optimS0 norm).len 0 (optimS0 norm)

/-- `optim_code` (sbfi.c:143-292) on a normalized command string, followed by
`match_brackets`. -/
def compile (norm : List Char) : Compiled :=
  let s1 := optimS1 norm
  let kept := despace s1
  let bytecode := kept.map (fun t => encodeChar t.1)
  let coeff0 : Int → Int := fun x =>
    if 0 ≤ x then (kept.map (fun t => t.2.1)).getD x.toNat 0 else 0
  let movF : Nat → Int := fun x =>
    if x < kept.length then (kept.map (fun t => t.2.2)).getD x 0 else s1.mov x
  { bytecode := bytecode,
    coeff := match_brackets bytecode coeff0,
    mov := movF,
    movOOB := s1.movOOB }

/-- The full front end applied to raw source text: `strip_comments` then
`optim_code` then `match_brackets`, as sequenced in `main` (sbfi.c:549-553). -/
def compileSrc (src : List Char) : Compiled :=
  compile (strip_comments src)

/-- The five values of the `MEMORY_BEHAVIOR` configuration macro
(sbfi.h:25-29). -/
inductive MemB
  | none
  | extend
  | abort
  | wrap
  | block
deriving DecidableEq

/-- `abort_memory` (sbfi.c:375-380) on the pointer offset `pos = ptr - ptr0`:
out-of-range targets abort with the attempted index and `size - 1`. -/
def abort_memory (size : Nat) (pos shift : Int) : Except (Int × Int) Int :=
  if pos + shift ≥ (size : Int) ∨ pos + shift < 0 then
    .error (pos + shift, (size : Int) - 1)
  else .ok (pos + shift)

/-- `wrap_memory` (sbfi.c:382-385). -/
def wrap_memory (size : Nat) (pos shift : Int) : Int :=
  pos + shift +
    (if pos + shift ≥ (size : Int) then -(size : Int)
     else if pos + shift < 0 then (size : Int) else 0)

/-- `block_memory` (sbfi.c:387-390). -/
def block_memory (size : Nat) (pos shift : Int) : Int :=
  if pos + shift ≥ (size : Int) then (size : Int) - 1
  else if pos + shift < 0 then 0 else pos + shift

/-- `extend_memory` (sbfi.c:347-373) acting on (size, cells, pos): growing to
the right keeps the cells in place (new cells read zero); growing to the left
shifts the contents up by the growth and rebases the pointer at 0. -/
def extend_memory (size : Nat) (tape : Int → Int) (pos shift : Int) :
    Nat × (Int → Int) × Int :=
  if pos + shift ≥ (size : Int) then
    ((pos + shift + 1).toNat, tape, pos + shift)
  else if pos + shift < 0 then
    let growth := (-(pos + shift)).toNat
    (size + growth, fun x => if x < (growth : Int) then 0 else tape (x - growth), 0)
  else (size, tape, pos + shift)

/-- Machine state of `exec_prog` (sbfi.c:393-535): instruction index `i`
(an `int`, initialized to -1), pointer offset `pos = ptr - ptr0`, current
tape size, tape contents by array index, output buffer and flushed output,
and remaining input. -/
structure VM where
  i : Int
  pos : Int
  size : Nat
  tape : Int → Int
  buf : List Int
  out : List Int
  inp : List Int

/-- The terminal state reached by the `end` handler (sbfi.c:532-534), after
the final buffer flush. -/
structure FinalR where
  out : List Int
  tape : Int → Int
  pos : Int
  size : Nat

/-- The `MOVE_POINTER` macro (sbfi.h:31-41): increment `i`, then route the
pre-move `mov[i]` through the configured memory behavior (a raw `ptr +=
mov[++i]` under NONE). -/
def movePtr (mb : MemB) (mov : Nat → Int) (vm : VM) : Except (Int × Int) VM :=
  let i := vm.i + 1
  let shift := mov i.toNat
  match mb with
  | .none => .ok { vm with i := i, pos := vm.pos + shift }
  | .abort =>
    match abort_memory vm.size vm.pos shift with
    | .error e => .error e
    | .ok p => .ok { vm with i := i, pos := p }
  | .wrap => .ok { vm with i := i, pos := wrap_memory vm.size vm.pos shift }
  | .block => .ok { vm with i := i, pos := block_memory vm.size vm.pos shift }
  | .extend =>
    let r := extend_memory vm.size vm.tape vm.pos shift
    .ok { vm with i := i, size := r.1, tape := r.2.1, pos := r.2.2 }

/-- Two consecutive `MOVE_POINTER` applications: every handler of `exec_prog`
ends with a bare `MOVE_POINTER` statement followed by `NEXT_INSTRUCTION`,
which itself begins with `MOVE_POINTER` (sbfi.h:56), so each dispatch
advances `i` twice and applies two pre-move entries. -/
def movePtr2 (mb : MemB) (mov : Nat → Int) (vm : VM) : Except (Int × Int) VM :=
  match movePtr mb mov vm with
  | .error e => .error e
  | .ok vm' => movePtr mb mov vm'

/-- The inner loop of the `seekzerocell` handler (sbfi.c:496):
`for (; *ptr; ptr += coeff[i]);` — raw pointer steps, fueled. -/
def seekZ : Nat → (Int → Int) → Int → Int → Option Int
  | 0, tape, _, pos => if tape pos = 0 then some pos else Option.none
  | fuel + 1, tape, k, pos =>
    if tape pos = 0 then some pos else seekZ fuel tape k (pos + k)

/-- Outcome of dispatching one instruction. -/
inductive StepRes
  | cont (vm : VM)
  | halt (f : FinalR)
  | err (e : Int × Int)
  | stuck

/-- CHUNK_SIZE (sbfi.h:45). -/
def CHUNK_SIZE : Nat := 1024

/-- One dispatch of `exec_prog` (sbfi.c:411-534): execute the handler for the
bytecode at `code[i]`, then the handler's `MOVE_POINTER` and the one inside
`NEXT_INSTRUCTION`.  Tag 2 (`movepointer`, sbfi.c:474-488) adds `coeff[i]`
to the pointer raw and falls through into the bracket handler.  Cell stores
reduce modulo 256 (CELL is `unsigned char`). -/
def dispatchStep (mb : MemB) (code : List Nat) (coeff : Int → Int)
    (mov : Nat → Int) (sfuel : Nat) (vm : VM) : StepRes :=
  match code.getD vm.i.toNat 0 with
  | 1 =>
    let vm := { vm with
      tape := updf vm.tape vm.pos ((vm.tape vm.pos + coeff vm.i).emod 256) }
    match movePtr2 mb mov vm with
    | .error e => .err e
    | .ok vm' => .cont vm'
  | 2 =>
    let pos := vm.pos + coeff vm.i
    let c := vm.tape pos
    let i := vm.i +
      (if (coeff vm.i > 0 ∧ c = 0) ∨ (coeff vm.i < 0 ∧ c ≠ 0) then coeff vm.i else 0)
    match movePtr2 mb mov { vm with pos := pos, i := i } with
    | .error e => .err e
    | .ok vm' => .cont vm'
  | 3 | 4 =>
    let c := vm.tape vm.pos
    let i := vm.i +
      (if (coeff vm.i > 0 ∧ c = 0) ∨ (coeff vm.i < 0 ∧ c ≠ 0) then coeff vm.i else 0)
    match movePtr2 mb mov { vm with i := i } with
    | .error e => .err e
    | .ok vm' => .cont vm'
  | 5 =>
    let vm := { vm with tape := updf vm.tape vm.pos 0 }
    match movePtr2 mb mov vm with
    | .error e => .err e
    | .ok vm' => .cont vm'
  | 6 =>
    match seekZ sfuel vm.tape (coeff vm.i) vm.pos with
    | Option.none => .stuck
    | some pos =>
      match movePtr2 mb mov { vm with pos := pos } with
      | .error e => .err e
      | .ok vm' => .cont vm'
  | 7 =>
    let t := vm.tape
    let dst := vm.pos + coeff vm.i
    let t := updf t dst ((t dst + t vm.pos).emod 256)
    let t := updf t vm.pos 0
    match movePtr2 mb mov { vm with tape := t } with
    | .error e => .err e
    | .ok vm' => .cont vm'
  | 8 =>
    let buf := vm.buf ++ [vm.tape vm.pos]
    let vm :=
      if buf.length = CHUNK_SIZE then { vm with buf := [], out := vm.out ++ buf }
      else { vm with buf := buf }
    match movePtr2 mb mov vm with
    | .error e => .err e
    | .ok vm' => .cont vm'
  | 9 =>
    let vm := { vm with buf := [], out := vm.out ++ vm.buf }
    let vm :=
      match vm.inp with
      | [] => vm
      | b :: rest => { vm with tape := updf vm.tape vm.pos b, inp := rest }
    match movePtr2 mb mov vm with
    | .error e => .err e
    | .ok vm' => .cont vm'
  | _ => .halt ⟨vm.out ++ vm.buf, vm.tape, vm.pos, vm.size⟩

/-- The dispatch loop, fueled. -/
def runVM (mb : MemB) (code : List Nat) (coeff : Int → Int) (mov : Nat → Int) :
    Nat → VM → Option (Except (Int × Int) FinalR)
  | 0, _ => Option.none
  | fuel + 1, vm =>
    match dispatchStep mb code coeff mov fuel vm with
    | .cont vm' => runVM mb code coeff mov fuel vm'
    | .halt f => some (.ok f)
    | .err e => some (.error e)
    | .stuck => Option.none

/-- `exec_prog` (sbfi.c:393-535) on a compiled program: start from `i = -1`
(sbfi.c:438) and an initial tape, perform the entry `MOVE_POINTER` plus
`NEXT_INSTRUCTION` pair (sbfi.c:439-440), then run the dispatch loop. -/
def exec_prog (mb : MemB) (c : Compiled) (size : Nat) (tape0 : Int → Int)
    (inp : List Int) (fuel : Nat) : Option (Except (Int × Int) FinalR) :=
  let vm0 : VM := ⟨-1, 0, size, tape0, [], [], inp⟩
  match movePtr2 mb c.mov vm0 with
  | .error e => some (.error e)
  | .ok vm1 => runVM mb c.bytecode c.coeff c.mov fuel vm1

/-- Modelled from the spec (§4.6): pointer-displacement resolution for the
naive reference semantics, one variant per BoundsPolicy.  Returns the new
(size, tape, position) or the fatal bounds report. -/
def specResolve (mb : MemB) (size : Nat) (tape : Int → Int) (pos shift : Int) :
    Except (Int × Int) (Nat × (Int → Int) × Int) :=
  let idx := pos + shift
  match mb with
  | .none => .ok (size, tape, idx)
  | .extend =>
    if idx ≥ (size : Int) then .ok ((idx + 1).toNat, tape, idx)
    else if idx < 0 then
      let growth := (-idx).toNat
      .ok (size + growth, fun x => if x < (growth : Int) then 0 else tape (x - growth), 0)
    else .ok (size, tape, idx)
  | .abort =>
    if idx ≥ (size : Int) ∨ idx < 0 then .error (idx, (size : Int) - 1)
    else .ok (size, tape, idx)
  | .wrap =>
    .ok (size, tape,
      if idx ≥ (size : Int) then idx - size else if idx < 0 then idx + size else idx)
  | .block =>
    .ok (size, tape,
      if idx ≥ (size : Int) then (size : Int) - 1 else if idx < 0 then 0 else idx)

/-- Modelled from the spec (§8, equivalence property): scan forward from the
slot after a `[` for its matching `]`, returning the index just past it. -/
def mFwd (prog : List Char) : Nat → Nat → Nat → Option Nat
  | 0, _, _ => Option.none
  | fuel + 1, j, depth =>
    if j < prog.length then
      let c := prog.getD j ' '
      if c = ']' then
        if depth = 0 then some (j + 1) else mFwd prog fuel (j + 1) (depth - 1)
      else if c = '[' then mFwd prog fuel (j + 1) (depth + 1)
      else mFwd prog fuel (j + 1) depth
    else Option.none

/-- Modelled from the spec: scan backward from the slot before a `]` for its
matching `[`, returning the index just past it. -/
def mBwd (prog : List Char) : Nat → Nat → Nat → Option Nat
  | 0, _, _ => Option.none
  | fuel + 1, j, depth =>
    let c := prog.getD j ' '
    if c = '[' then
      if depth = 0 then some (j + 1) else mBwd prog fuel (j - 1) (depth - 1)
    else if c = ']' then mBwd prog fuel (j - 1) (depth + 1)
    else if j = 0 then Option.none
    else mBwd prog fuel (j - 1) depth

/-- Final state of the naive reference execution. -/
structure NFinal where
  out : List Int
  tape : Int → Int
  pos : Int
  size : Nat

/-- Modelled from the spec (§1, §4.5, §8): the naive, unoptimized execution
of a program — one command character per step, pointer moves resolved
through the BoundsPolicy, cells wrapping modulo 256, `[`/`]` as conditional
jumps to their matching brackets, no instruction-stream rewriting. -/
def naiveRun (mb : MemB) (prog : List Char) :
    Nat → Nat → Int → Nat → (Int → Int) → List Int → List Int →
    Option (Except (Int × Int) NFinal)
  | 0, _, _, _, _, _, _ => Option.none
  | fuel + 1, pc, pos, size, tape, out, inp =>
    if pc < prog.length then
      let c := prog.getD pc ' '
      if c = '+' then
        naiveRun mb prog fuel (pc + 1) pos size
          (updf tape pos ((tape pos + 1).emod 256)) out inp
      else if c = '-' then
        naiveRun mb prog fuel (pc + 1) pos size
          (updf tape pos ((tape pos - 1).emod 256)) out inp
      else if c = '>' then
        match specResolve mb size tape pos 1 with
        | .error e => some (.error e)
        | .ok r => naiveRun mb prog fuel (pc + 1) r.2.2 r.1 r.2.1 out inp
      else if c = '<' then
        match specResolve mb size tape pos (-1) with
        | .error e => some (.error e)
        | .ok r => naiveRun mb prog fuel (pc + 1) r.2.2 r.1 r.2.1 out inp
      else if c = '.' then
        naiveRun mb prog fuel (pc + 1) pos size tape (out ++ [tape pos]) inp
      else if c = ',' then
        match inp with
        | [] => naiveRun mb prog fuel (pc + 1) pos size tape out inp
        | b :: rest => naiveRun mb prog fuel (pc + 1) pos size (updf tape pos b) out rest
      else if c = '[' then
        if tape pos = 0 then
          match mFwd prog prog.length (pc + 1) 0 with
          | Option.none => Option.none
          | some pc' => naiveRun mb prog fuel pc' pos size tape out inp
        else naiveRun mb prog fuel (pc + 1) pos size tape out inp
      else if c = ']' then
        if tape pos ≠ 0 then
          match mBwd prog prog.length (pc - 1) 0 with
          | Option.none => Option.none
          | some pc' => naiveRun mb prog fuel pc' pos size tape out inp
        else naiveRun mb prog fuel (pc + 1) pos size tape out inp
      else naiveRun mb prog fuel (pc + 1) pos size tape out inp
    else some (.ok ⟨out, tape, pos, size⟩)

/-- Extract the value of tape cell `x` from a run result (a sentinel for
non-normal results, which the theorems never hit). -/
def cellOfE (r : Option (Except (Int × Int) FinalR)) (x : Int) : Int :=
  match r with
  | some (.ok f) => f.tape x
  | _ => -999

/-- Extract the flushed output from a run result. -/
def outOfE (r : Option (Except (Int × Int) FinalR)) : List Int :=
  match r with
  | some (.ok f) => f.out
  | _ => [-999]

/-- Cell extraction for the naive semantics. -/
def cellOfN (r : Option (Except (Int × Int) NFinal)) (x : Int) : Int :=
  match r with
  | some (.ok f) => f.tape x
  | _ => -999

/-- Output extraction for the naive semantics. -/
def outOfN (r : Option (Except (Int × Int) NFinal)) : List Int :=
  match r with
  | some (.ok f) => f.out
  | _ => [-999]

/-- C8: boundary laws of the bounds policies — for a tape of length `L`, a
displacement requesting index `L` under Wrap resolves to index 0, a
displacement requesting index `-1` under Block resolves to index 0, and a
displacement requesting index `L` under Abort fails reporting attempted
index `L` and the valid range `[0, L-1]`. -/
theorem c8_bounds_laws (L : Nat) (p1 s1 p2 s2 p3 s3 : Int) (hL : 0 < L)
    (h1 : p1 + s1 = (L : Int)) (h2 : p2 + s2 = -1) (h3 : p3 + s3 = (L : Int)) :
    wrap_memory L p1 s1 = 0 ∧ block_memory L p2 s2 = 0 ∧
    abort_memory L p3 s3 = .error ((L : Int), (L : Int) - 1) := by
  refine ⟨?_, ?_, ?_⟩
  · unfold wrap_memory
    rw [h1, if_pos (le_refl _)]
    ring
  · unfold block_memory
    rw [h2, if_neg (by omega), if_pos (by omega)]
  · unfold abort_memory
    rw [h3, if_pos (Or.inl (le_refl _))]

/-- Witness for C8 at `L = 3`. -/
theorem c8_witness :
    wrap_memory 3 1 2 = 0 ∧ block_memory 3 1 (-2) = 0 ∧
    abort_memory 3 2 1 = .error ((3 : Int), (3 : Int) - 1) :=
  c8_bounds_laws 3 1 2 1 (-2) 2 1 (by decide) (by decide) (by decide) (by decide)

/-- C10 (refuted): compiling the program `">"` makes the pointer-movement
coalescing step store to `mov[1]` while the `mov` array was allocated with
`strlen(">") = 1` entries — the write index is not strictly less than the
allocated length. -/
theorem c10_mov_write_oob : (compileSrc ('>' :: [])).movOOB = true := by rfl

/-- C1 (refuted): for the program `"+"` (policy None, 30000 cells, empty
input), the naive reference execution leaves cell 0 holding 1, but executing
the compiled instruction stream leaves cell 0 holding 0 — the entry sequence
`MOVE_POINTER NEXT_INSTRUCTION` advances the instruction cursor twice, so
the `AddValue` in slot 0 is never dispatched. -/
theorem c1_opt_naive_divergence :
    cellOfN (naiveRun .none ('+' :: []) 10 0 0 30000 (fun _ => 0) [] []) 0 = 1 ∧
    cellOfE (exec_prog .none (compileSrc ('+' :: [])) 30000 (fun _ => 0) [] 10) 0 = 0 ∧
    outOfN (naiveRun .none ('+' :: []) 10 0 0 30000 (fun _ => 0) [] []) = [] ∧
    outOfE (exec_prog .none (compileSrc ('+' :: [])) 30000 (fun _ => 0) [] 10) = [] ∧
    (1 : Int) ≠ 0 :=
  ⟨rfl, rfl, rfl, rfl, by decide⟩

/-- The compiled form of `"+."` used to exhibit the dispatch-step cursor
arithmetic. -/
def c2prog : Compiled := compileSrc ('+' :: '.' :: [])

/-- A machine state about to dispatch the `AddValue` in slot 0 of `c2prog`. -/
def c2vm : VM := ⟨0, 0, 30000, fun _ => 0, [], [], []⟩

/-- Instruction index after a dispatch step (sentinel for non-continue
results). -/
def stepIdx (r : StepRes) : Int :=
  match r with
  | .cont vm => vm.i
  | _ => -999

/-- C2 (refuted): dispatching the `AddValue` instruction in slot 0 leaves the
instruction cursor at 2, not 1 — each dispatch runs `MOVE_POINTER` twice
(once in the handler, once inside `NEXT_INSTRUCTION`), advancing the cursor
by two and consuming two pre-move entries. -/
theorem c2_dispatch_double_advance :
    stepIdx (dispatchStep .none c2prog.bytecode c2prog.coeff c2prog.mov 5 c2vm) = 2 ∧
    (2 : Int) ≠ 0 + 1 :=
  ⟨rfl, by decide⟩

/-- C3 (refuted): the program `"[-]"` started with cell 0 holding 5 leaves
the cell at 5 under the compiled execution (the compiled `SetZero` in slot 0
is skipped by the doubled entry `MOVE_POINTER`), while the naive reference
execution clears it to 0; neither emits output. -/
theorem c3_clearloop_scenario_fails :
    cellOfE (exec_prog .none (compileSrc ('[' :: '-' :: ']' :: [])) 30000
      (updf (fun _ => 0) 0 5) [] 10) 0 = 5 ∧
    outOfE (exec_prog .none (compileSrc ('[' :: '-' :: ']' :: [])) 30000
      (updf (fun _ => 0) 0 5) [] 10) = [] ∧
    cellOfN (naiveRun .none ('[' :: '-' :: ']' :: []) 40 0 0 30000
      (updf (fun _ => 0) 0 5) [] []) 0 = 0 ∧
    (5 : Int) ≠ 0 :=
  ⟨rfl, rfl, rfl, by decide⟩

/-- C5 (refuted): validating `"[["` reports position 0, not 2 — the backward
scan's `--i` runs once more after the counter turns positive, so the reported
value is one less than the index of the excess opening bracket. -/
theorem c5_backward_report_bug :
    check_src ('[' :: '[' :: []) = .error 0 ∧ (0 : Int) ≠ 2 :=
  ⟨rfl, by decide⟩

/-- C4, counterexample: validating `"]"` reports position 1, not 0. -/
theorem c4_counterexample :
    check_src (']' :: []) = .error 1 ∧ (1 : Int) ≠ 0 :=
  ⟨rfl, by decide⟩

/-- Sum of bracket weights of the first `p` characters. -/
def preSum (s : List Char) (p : Nat) : Int :=
  ((s.take p).map deltaC).sum

theorem preSum_zero (s : List Char) : preSum s 0 = 0 := rfl

theorem preSum_cons (c : Char) (t : List Char) (q : Nat) :
    preSum (c :: t) (q + 1) = deltaC c + preSum t q := by
  simp [preSum, List.take_succ_cons]

/-- A forward scan entered with a negative counter stops immediately. -/
theorem csFwd_neg (s : List Char) (i : Nat) (n : Int) (hn : n < 0) :
    csFwd s i n = (i, n) := by
  cases s with
  | nil => rfl
  | cons c t => simp [csFwd, hn]

/-- If the running counter stays nonnegative through position `p` and first
turns negative after consuming position `p`, the forward scan stops with
index `p + 1` and that negative counter. -/
theorem csFwd_first_neg (s : List Char) (p : Nat) (i : Nat) (n : Int)
    (hp : p < s.length)
    (hnn : ∀ q, q ≤ p → 0 ≤ n + preSum s q)
    (hneg : n + preSum s (p + 1) < 0) :
    csFwd s i n = (i + p + 1, n + preSum s (p + 1)) := by
  induction s generalizing i n p with
  | nil => simp at hp
  | cons c t ih =>
    have h0 : 0 ≤ n := by simpa [preSum_zero] using hnn 0 (Nat.zero_le _)
    rw [csFwd, if_neg (by omega)]
    cases p with
    | zero =>
      have : n + deltaC c < 0 := by simpa [preSum_cons, preSum_zero] using hneg
      rw [csFwd_neg t (i + 1) _ this]
      have : n + preSum (c :: t) 1 = n + deltaC c := by
        simp [preSum_cons, preSum_zero]
      rw [this]
    | succ p' =>
      have hlen : p' < t.length := by simpa using hp
      have hnn' : ∀ q, q ≤ p' → 0 ≤ n + deltaC c + preSum t q := by
        intro q hq
        have := hnn (q + 1) (by omega)
        rw [preSum_cons] at this
        omega
      have hneg' : n + deltaC c + preSum t (p' + 1) < 0 := by
        rw [preSum_cons] at hneg
        omega
      have := ih p' (i + 1) (n + deltaC c) hlen hnn' hneg'
      rw [this, preSum_cons]
      refine Prod.ext ?_ ?_
      · simp only []
        omega
      · simp only []
        omega

/-- Helper: a first-negative prefix at position `p` makes the validator
report `p + 1`. -/
theorem check_src_fwd_neg (s : List Char) (p : Nat)
    (hp : p < s.length)
    (hnn : ∀ q, q ≤ p → 0 ≤ preSum s q)
    (hneg : preSum s (p + 1) < 0) :
    check_src s = .error ((p : Int) + 1) := by
  have hrun : csFwd s 0 0 = (0 + p + 1, 0 + preSum s (p + 1)) :=
    csFwd_first_neg s p 0 0 hp (by intro q hq; simpa using hnn q hq) (by simpa using hneg)
  unfold check_src
  rw [hrun]
  simp only [Nat.zero_add, Int.zero_add]
  rw [if_pos hneg]
  simp

/-- C4 (amended): if the running depth counter of the forward pass first goes
negative after consuming position `p`, the validator fails reporting `p + 1`
(one past the offending closing bracket — the loop increment runs once more
after the counter turns negative). -/
theorem c4_forward_report_amended (s : List Char) (p : Nat)
    (hp : p < s.length)
    (hnn : ∀ q, q ≤ p → 0 ≤ preSum s q)
    (hneg : preSum s (p + 1) < 0) :
    check_src s = .error ((p : Int) + 1) :=
  check_src_fwd_neg s p hp hnn hneg

/-- Witness for C4's amended claim at the program `"]"`, `p = 0`. -/
theorem c4_witness : check_src (']' :: []) = .error ((0 : Int) + 1) :=
  c4_forward_report_amended (']' :: []) 0 (by decide)
    (by intro q hq; interval_cases q <;> decide) (by decide)

/-- C7: in a five-slot window shaped `[ AddValue MovePointer AddValue
MovePointer ]`, the peephole step rewrites to a single MoveAdd whose operand
is the first MovePointer operand exactly when the first AddValue operand is
-1, the second AddValue operand is +1, and the two MovePointer operands are
additive inverses; any other operand combination leaves the state untouched. -/
theorem c7_moveadd_window_iff (s : OptArr) (i : Nat)
    (h0 : getC s i = '[') (h1 : getC s (i + 1) = 'c') (h2 : getC s (i + 2) = 'p')
    (h3 : getC s (i + 3) = 'c') (h4 : getC s (i + 4) = 'p')
    (h5 : getC s (i + 5) = ']') :
    (s.coeff (i + 1) = -1 ∧ s.coeff (i + 3) = 1 ∧ s.coeff (i + 2) = -s.coeff (i + 4) →
      peepStep s i = { s with
        code := updf (updf (updf (updf (updf (updf s.code i 'm') (i + 1) ' ')
          (i + 2) ' ') (i + 3) ' ') (i + 4) ' ') (i + 5) ' ',
        coeff := updf s.coeff i (s.coeff (i + 2)) }) ∧
    (¬(s.coeff (i + 1) = -1 ∧ s.coeff (i + 3) = 1 ∧
        s.coeff (i + 2) = -s.coeff (i + 4)) →
      peepStep s i = s) := by
  have m1 : matchPat s i ['[', 'c', ']'] = false := by
    simp [matchPat, h0, h1, h2]
  have m2 : matchPat s i ['[', 'p', ']'] = false := by
    simp [matchPat, h0, h1]
  have m3 : matchPat s i ['[', 'c', 'p', 'c', 'p', ']'] = true := by
    simp [matchPat, h0, h1, h2, h3, h4, h5]
  have m4 : matchPat s i ['p'] = false := by
    simp [matchPat, h0]
  constructor
  · intro hc
    unfold peepStep
    rw [if_neg (by simp [m1]), if_neg (by simp [m2]),
      if_pos (by simp only [m3, true_and]; exact hc)]
  · intro hc
    unfold peepStep
    rw [if_neg (by simp [m1]), if_neg (by simp [m2]),
      if_neg (by simp only [m3, true_and]; exact hc), if_neg (by simp [m4])]

/-- A concrete five-slot window matching the MoveAdd shape with operands
(-1, a, +1, -a) for a = 1. -/
def c7arr : OptArr :=
  { code := fun k => ['[', 'c', 'p', 'c', 'p', ']'].getD k ' ',
    coeff := fun k => ([0, -1, 1, 1, -1, 0] : List Int).getD k 0,
    len := 6,
    mov := fun _ => 0,
    alloc := 6,
    movOOB := false }

/-- Witness for C7 on `c7arr`. -/
theorem c7_witness :
    peepStep c7arr 0 = { c7arr with
      code := updf (updf (updf (updf (updf (updf c7arr.code 0 'm') (0 + 1) ' ')
        (0 + 2) ' ') (0 + 3) ' ') (0 + 4) ' ') (0 + 5) ' ',
      coeff := updf c7arr.coeff 0 (c7arr.coeff (0 + 2)) } :=
  (c7_moveadd_window_iff c7arr 0 (by decide) (by decide) (by decide) (by decide)
    (by decide) (by decide)).1 ⟨by decide, by decide, by decide⟩

theorem movWrite_len (s : OptArr) (x : Nat) (v : Int) :
    (movWrite s x v).len = s.len := by
  unfold movWrite
  split <;> rfl

theorem movWrite_code (s : OptArr) (x : Nat) (v : Int) :
    (movWrite s x v).code = s.code := by
  unfold movWrite
  split <;> rfl

/-- The peephole step never changes the working length. -/
theorem peepStep_len (s : OptArr) (i : Nat) : (peepStep s i).len = s.len := by
  unfold peepStep
  split_ifs <;> first | rfl | rw [movWrite_len]

/-- The peephole step writes only at positions `≥ i`. -/
theorem peepStep_code_lt (s : OptArr) (i j : Nat) (hj : j < i) :
    (peepStep s i).code j = s.code j := by
  unfold peepStep
  split_ifs <;>
    first
      | rfl
      | (simp only [movWrite_code, updf]
         split_ifs <;> first | rfl | omega)

/-- After the peephole step at a position inside the string, that position no
longer holds a `p` command: either a rewrite fired (writing `0`, `s`, `m` or
a space) or no rewrite fired, in which case the lone-`p` guard having failed
means the slot was not a `p`. -/
theorem peepStep_code_at (s : OptArr) (i : Nat) (hi : i < s.len) :
    (peepStep s i).code i ≠ 'p' := by
  unfold peepStep
  split_ifs with g1 g2 g3 g4 <;>
    first
      | (simp only [movWrite_code, updf]
         split_ifs <;> first | decide | omega)
      | (intro hp
         apply g4
         simp [matchPat, getC, hi, hp])

/-- Running the peephole loop to completion leaves no `p` command anywhere in
the working string. -/
theorem peepLoop_no_p (fuel : Nat) :
    ∀ (i : Nat) (s : OptArr),
      (∀ j, j < i → j < s.len → s.code j ≠ 'p') →
      s.len ≤ i + fuel →
      ∀ j, j < (peepLoop fuel i s).len → (peepLoop fuel i s).code j ≠ 'p' := by
  induction fuel with
  | zero =>
    intro i s hinv hfu j hj
    exact hinv j (by simpa [peepLoop] using hj.trans_le hfu) (by simpa [peepLoop] using hj)
  | succ fuel ih =>
    intro i s hinv hfu j
    rw [peepLoop]
    by_cases hi : i < s.len
    · rw [if_pos hi]
      apply ih (i + 1) (peepStep s i)
      · intro k hk hk'
        rcases Nat.lt_or_ge k i with hki | hki
        · rw [peepStep_code_lt s i k hki]
          exact hinv k hki (by rwa [peepStep_len] at hk')
        · have : k = i := by omega
          subst this
          exact peepStep_code_at s k hi
      · rw [peepStep_len]
        omega
    · rw [if_neg hi]
      intro hj
      exact hinv j (by omega) hj

theorem encodeChar_eq_two (c : Char) (h : encodeChar c = 2) : c = 'p' := by
  unfold encodeChar at h
  split_ifs at h <;> simp_all

/-- C9: the final encoded bytecode stream of the compiler contains no
MovePointer opcode (tag 2): every `p` slot is consumed by a peephole rewrite
or folded into the pre-move array before encoding. -/
theorem c9_no_movepointer_opcode (src : List Char) :
    ((compileSrc src).bytecode).all (fun b => b ≠ 2) = true := by
  rw [List.all_eq_true]
  intro b hb
  unfold compileSrc compile at hb
  simp only [List.mem_map] at hb
  obtain ⟨t, ht, rfl⟩ := hb
  rw [despace, List.mem_filter] at ht
  obtain ⟨htmem, htsp⟩ := ht
  rw [extract, List.mem_map] at htmem
  obtain ⟨k, hk, rfl⟩ := htmem
  rw [List.mem_range] at hk
  simp only [decide_eq_true_eq]
  intro h2
  exact peepLoop_no_p _ 0 _ (fun j hj _ => absurd hj (Nat.not_lt_zero j))
    (by simp only [Nat.zero_add]; exact Nat.le_refl _) k hk (encodeChar_eq_two _ h2)

/-- Generic prefix sum of a weight function over the first `p` elements. -/
def preSumG {α : Type} (δ : α → Int) (l : List α) (p : Nat) : Int :=
  ((l.take p).map δ).sum

/-- Counting balance: every prefix weight is nonnegative and the total is 0. -/
def BalCnt {α : Type} (δ : α → Int) (l : List α) : Prop :=
  (∀ p, 0 ≤ preSumG δ l p) ∧ (l.map δ).sum = 0

/-- `r` has the same total weight as `l` and every prefix weight of `r`
occurs as a prefix weight of `l`. -/
def SumCorr {α β : Type} (δa : α → Int) (δb : β → Int)
    (l : List α) (r : List β) : Prop :=
  (∀ p, ∃ q, preSumG δb r p = preSumG δa l q) ∧ (r.map δb).sum = (l.map δa).sum

theorem preSumG_nil {α : Type} (δ : α → Int) (p : Nat) :
    preSumG δ ([] : List α) p = 0 := by
  simp [preSumG]

theorem preSumG_zero {α : Type} (δ : α → Int) (l : List α) :
    preSumG δ l 0 = 0 := rfl

theorem preSumG_cons {α : Type} (δ : α → Int) (a : α) (t : List α) (p : Nat) :
    preSumG δ (a :: t) (p + 1) = δ a + preSumG δ t p := by
  simp [preSumG, List.take_succ_cons]

theorem preSumG_length {α : Type} (δ : α → Int) (l : List α) :
    preSumG δ l l.length = (l.map δ).sum := by
  simp [preSumG]

theorem balcnt_of_corr {α β : Type} (δa : α → Int) (δb : β → Int)
    (l : List α) (r : List β) (hc : SumCorr δa δb l r) (hb : BalCnt δa l) :
    BalCnt δb r := by
  constructor
  · intro p
    obtain ⟨q, hq⟩ := hc.1 p
    rw [hq]
    exact hb.1 q
  · rw [hc.2, hb.2]

/-- Filtering out weight-zero elements is a sum correspondence. -/
theorem corr_filter {α : Type} (δ : α → Int) (keep : α → Bool)
    (h0 : ∀ a, keep a = false → δ a = 0) (l : List α) :
    SumCorr δ δ l (l.filter keep) := by
  induction l with
  | nil => exact ⟨fun p => ⟨0, by simp [preSumG]⟩, rfl⟩
  | cons a t ih =>
    by_cases hk : keep a
    · rw [List.filter_cons_of_pos hk]
      constructor
      · intro p
        cases p with
        | zero => exact ⟨0, rfl⟩
        | succ p' =>
          obtain ⟨q, hq⟩ := ih.1 p'
          exact ⟨q + 1, by rw [preSumG_cons, preSumG_cons, hq]⟩
      · simp only [List.map_cons, List.sum_cons, ih.2]
    · rw [List.filter_cons_of_neg (by simpa using hk)]
      have hz : δ a = 0 := h0 a (by simpa using hk)
      constructor
      · intro p
        obtain ⟨q, hq⟩ := ih.1 p
        exact ⟨q + 1, by rw [preSumG_cons, hq, hz, Int.zero_add]⟩
      · simp only [List.map_cons, List.sum_cons, ih.2, hz, Int.zero_add]

/-- Mapping through a weight-preserving function is a sum correspondence. -/
theorem corr_map {α β : Type} (δa : α → Int) (δb : β → Int) (f : α → β)
    (hf : ∀ a, δb (f a) = δa a) (l : List α) :
    SumCorr δa δb l (l.map f) := by
  have hpre : ∀ p, preSumG δb (l.map f) p = preSumG δa l p := by
    intro p
    unfold preSumG
    rw [← List.map_take, List.map_map]
    congr 1
    exact List.map_congr_left (fun a _ => hf a)
  constructor
  · intro p
    exact ⟨p, hpre p⟩
  · rw [List.map_map]
    congr 1
    exact List.map_congr_left (fun a _ => hf a)

/-- Weight of a folded-command pair: the bracket weight of its command. -/
def deltaP (t : Char × Int) : Int := deltaC t.1

/-- Weight of a (command, coefficient, pre-move) triple. -/
def deltaT (t : Char × Int × Int) : Int := deltaC t.1

/-- Weight of a bytecode tag: 3 counts +1, 4 counts -1. -/
def deltaB (b : Nat) : Int :=
  if b = 3 then 1 else if b = 4 then -1 else 0

theorem deltaC_unify (c : Char) : deltaC (unify c) = deltaC c := by
  unfold unify deltaC
  split_ifs <;> simp_all

/-- Run-length folding is a sum correspondence: merged slots carry the same
(zero) bracket weight. -/
theorem corr_runfold (l : List (Char × Int)) :
    SumCorr deltaP deltaP l (runfold l) := by
  induction l with
  | nil => exact ⟨fun p => ⟨0, by simp [runfold, preSumG]⟩, rfl⟩
  | cons a t ih =>
    obtain ⟨c, k⟩ := a
    rw [runfold]
    by_cases hcp : c = 'c' ∨ c = 'p'
    · rw [if_pos hcp]
      have hδ : deltaC c = 0 := by
        rcases hcp with h | h <;> simp [h, deltaC]
      rcases hr : runfold t with _ | ⟨⟨c2, k2⟩, t2⟩
      · refine ⟨fun p => ?_, ?_⟩
        · cases p with
          | zero => exact ⟨0, rfl⟩
          | succ p' =>
            refine ⟨0, ?_⟩
            have : preSumG deltaP [(c, k)] (p' + 1) = 0 := by
              rw [preSumG_cons]
              simp [preSumG, deltaP, hδ]
            rw [this, preSumG_zero]
        · have := ih.2
          rw [hr] at this
          simp only [List.map_nil, List.sum_nil] at this
          simp [deltaP, hδ, ← this]
      · change SumCorr deltaP deltaP ((c, k) :: t)
          (if c2 = c then (c, k + k2) :: t2 else (c, k) :: (c2, k2) :: t2)
        by_cases hc2 : c2 = c
        · rw [if_pos hc2]
          refine ⟨fun p => ?_, ?_⟩
          · cases p with
            | zero => exact ⟨0, rfl⟩
            | succ p' =>
              have h1 := ih.1 (p' + 1)
              rw [hr, preSumG_cons] at h1
              obtain ⟨q, hq⟩ := h1
              refine ⟨q + 1, ?_⟩
              rw [preSumG_cons, preSumG_cons]
              have hz1 : deltaP (c, k + k2) = 0 := by simp [deltaP, hδ]
              have hz2 : deltaP (c2, k2) = 0 := by
                subst hc2
                simp [deltaP, hδ]
              have hz3 : deltaP (c, k) = 0 := by simp [deltaP, hδ]
              omega
          · have htot := ih.2
            rw [hr] at htot
            simp only [List.map_cons, List.sum_cons] at htot ⊢
            have hz1 : deltaP (c, k + k2) = 0 := by simp [deltaP, hδ]
            have hz2 : deltaP (c2, k2) = 0 := by
              subst hc2
              simp [deltaP, hδ]
            have hz3 : deltaP (c, k) = 0 := by simp [deltaP, hδ]
            omega
        · rw [if_neg hc2]
          refine ⟨fun p => ?_, ?_⟩
          · cases p with
            | zero => exact ⟨0, rfl⟩
            | succ p' =>
              have := ih.1 p'
              rw [hr] at this
              obtain ⟨q, hq⟩ := this
              refine ⟨q + 1, ?_⟩
              rw [preSumG_cons, preSumG_cons, hq]
          · have := ih.2
            rw [hr] at this
            simp only [List.map_cons, List.sum_cons] at this ⊢
            omega
    · rw [if_neg hcp]
      refine ⟨fun p => ?_, ?_⟩
      · cases p with
        | zero => exact ⟨0, rfl⟩
        | succ p' =>
          obtain ⟨q, hq⟩ := ih.1 p'
          exact ⟨q + 1, by rw [preSumG_cons, preSumG_cons, hq]⟩
      · simp only [List.map_cons, List.sum_cons, ih.2]

/-- A forward scan whose counter never goes negative consumes the whole
string. -/
theorem csFwd_all (s : List Char) (i : Nat) (n : Int)
    (h : ∀ q, q ≤ s.length → 0 ≤ n + preSum s q) :
    csFwd s i n = (i + s.length, n + preSum s s.length) := by
  induction s generalizing i n with
  | nil => simp [csFwd, preSum]
  | cons c t ih =>
    have h0 : 0 ≤ n := by simpa [preSum_zero] using h 0 (Nat.zero_le _)
    rw [csFwd, if_neg (by omega)]
    have h' : ∀ q, q ≤ t.length → 0 ≤ n + deltaC c + preSum t q := by
      intro q hq
      have := h (q + 1) (by simpa using Nat.succ_le_succ hq)
      rw [preSum_cons] at this
      omega
    rw [ih (i + 1) (n + deltaC c) h']
    refine Prod.ext ?_ ?_
    · simp only []
      simp [List.length_cons]
      omega
    · simp only []
      have : preSum (c :: t) (c :: t).length = deltaC c + preSum t t.length := by
        rw [List.length_cons, preSum_cons]
      omega

/-- A validated source has nonnegative bracket prefix sums and zero total. -/
theorem check_ok_sums (s : List Char) (hok : check_src s = .ok ()) :
    (∀ q, q ≤ s.length → 0 ≤ preSum s q) ∧ preSum s s.length = 0 := by
  have hnn : ∀ q, q ≤ s.length → 0 ≤ preSum s q := by
    by_contra hbad
    push_neg at hbad
    have hex : ∃ q, q ≤ s.length ∧ preSum s q < 0 := by
      obtain ⟨q, hq1, hq2⟩ := hbad
      exact ⟨q, hq1, hq2⟩
    classical
    have hfind := Nat.find_spec hex
    set q0 := Nat.find hex with hq0
    have hmin : ∀ q, q < q0 → ¬(q ≤ s.length ∧ preSum s q < 0) :=
      fun q hq => Nat.find_min hex hq
    obtain ⟨hq0len, hq0neg⟩ := hfind
    cases hq0case : q0 with
    | zero =>
      rw [hq0case] at hq0neg
      simp [preSum] at hq0neg
    | succ p =>
      have hp : p < s.length := by omega
      have hnn' : ∀ q, q ≤ p → 0 ≤ preSum s q := by
        intro q hq
        have := hmin q (by omega)
        push_neg at this
        by_cases hql : q ≤ s.length
        · exact this hql
        · omega
      have hneg : preSum s (p + 1) < 0 := by
        rw [← hq0case]
        exact hq0neg
      have := check_src_fwd_neg s p hp hnn' hneg
      rw [this] at hok
      exact Except.noConfusion hok
  refine ⟨hnn, ?_⟩
  have hrun : csFwd s 0 0 = (0 + s.length, 0 + preSum s s.length) :=
    csFwd_all s 0 0 (by intro q hq; simpa using hnn q hq)
  by_contra hne
  unfold check_src at hok
  rw [hrun] at hok
  simp only [Nat.zero_add, Int.zero_add] at hok
  rcases lt_trichotomy (preSum s s.length) 0 with hlt | heq | hgt
  · rw [if_pos hlt] at hok
    exact Except.noConfusion hok
  · exact hne heq
  · rw [if_neg (by omega), if_pos hgt] at hok
    exact Except.noConfusion hok

/-- Prefix bracket sums of the peephole working array. -/
def sumS (s : OptArr) : Nat → Int
  | 0 => 0
  | p + 1 => sumS s p + deltaC (s.code p)

/-- Counting balance of the working array up to its logical length. -/
def BalOpt (s : OptArr) : Prop :=
  (∀ p, p ≤ s.len → 0 ≤ sumS s p) ∧ sumS s s.len = 0

theorem sumS_congr (s s' : OptArr) (p : Nat)
    (h : ∀ x, x < p → s'.code x = s.code x) : sumS s' p = sumS s p := by
  induction p with
  | zero => rfl
  | succ p ih =>
    rw [sumS, sumS, ih (fun x hx => h x (by omega)), h p (by omega)]

/-- Rewriting a window `[i, i+m)` whose old bracket weights summed to zero
with characters of weight zero preserves counting balance, provided the
window lies inside the string. -/
theorem balopt_window (s s' : OptArr) (i m : Nat)
    (hlen : s'.len = s.len)
    (hwin : i + m ≤ s.len)
    (hout : ∀ x, x < i ∨ i + m ≤ x → s'.code x = s.code x)
    (hnew : ∀ x, i ≤ x → x < i + m → deltaC (s'.code x) = 0)
    (hold : sumS s (i + m) = sumS s i)
    (hb : BalOpt s) : BalOpt s' := by
  have hlow : ∀ p, p ≤ i → sumS s' p = sumS s p := by
    intro p hp
    exact sumS_congr s s' p (fun x hx => hout x (Or.inl (by omega)))
  have hmid : ∀ p, i ≤ p → p ≤ i + m → sumS s' p = sumS s' i := by
    intro p hpi hpm
    obtain ⟨d, rfl⟩ := Nat.exists_eq_add_of_le hpi
    induction d with
    | zero => rfl
    | succ d ihd =>
      rw [← Nat.add_assoc, sumS, hnew (i + d) (by omega) (by omega),
        Int.add_zero]
      exact ihd (by omega) (by omega)
  have hhigh : ∀ p, i + m ≤ p → sumS s' p = sumS s p := by
    intro p hp
    obtain ⟨d, rfl⟩ := Nat.exists_eq_add_of_le hp
    induction d with
    | zero =>
      rw [Nat.add_zero, hmid (i + m) (by omega) (by omega), hlow i (by omega), hold]
    | succ d ihd =>
      rw [← Nat.add_assoc, sumS, sumS, ihd (by omega),
        hout (i + m + d) (Or.inr (by omega))]
  constructor
  · intro p hp
    rcases Nat.lt_or_ge p i with h1 | h1
    · rw [hlow p (by omega)]
      exact hb.1 p (by omega)
    · rcases Nat.lt_or_ge p (i + m) with h2 | h2
      · rw [hmid p h1 (by omega), hlow i (by omega)]
        exact hb.1 i (by omega)
      · rw [hhigh p h2]
        exact hb.1 p (by rwa [hlen] at hp)
  · rw [hlen, hhigh s.len hwin]
    exact hb.2

/-- A successful `getC` comparison against a non-NUL character pins the
position inside the string. -/
theorem getC_eq_char (s : OptArr) (x : Nat) (c : Char) (hc : c ≠ Char.ofNat 0)
    (h : getC s x = c) : x < s.len ∧ s.code x = c := by
  unfold getC at h
  by_cases hx : x < s.len
  · rw [if_pos hx] at h
    exact ⟨hx, h⟩
  · rw [if_neg hx] at h
    exact absurd h.symm hc

theorem deltaC_lb : deltaC '[' = 1 := by decide

theorem deltaC_rb : deltaC ']' = -1 := by decide

theorem deltaC_cc : deltaC 'c' = 0 := by decide

theorem deltaC_pp : deltaC 'p' = 0 := by decide

/-- The peephole step preserves counting balance of the working string. -/
theorem balopt_peepStep (s : OptArr) (i : Nat) (hb : BalOpt s) :
    BalOpt (peepStep s i) := by
  unfold peepStep
  split_ifs with g1 g2 g3 g4
  · -- [c] with coefficient -1 rewritten to SetZero
    obtain ⟨gm, _⟩ := g1
    simp only [matchPat, Bool.and_eq_true, decide_eq_true_eq] at gm
    obtain ⟨e0, e1, e2, _⟩ := gm
    obtain ⟨hl0, hc0⟩ := getC_eq_char s i '[' (by decide) e0
    obtain ⟨hl1, hc1⟩ := getC_eq_char s (i + 1) 'c' (by decide) e1
    obtain ⟨hl2, hc2⟩ := getC_eq_char s (i + 2) ']' (by decide) e2
    refine balopt_window s _ i 3 rfl (by omega) ?_ ?_ ?_ hb
    · intro x hx
      simp only [updf]
      split_ifs <;> first | omega | rfl
    · intro x hx1 hx2
      simp only [updf]
      have : x = i ∨ x = i + 1 ∨ x = i + 2 := by omega
      rcases this with rfl | rfl | rfl
      · rw [if_neg (by omega), if_neg (by omega), if_pos rfl]
        decide
      · rw [if_neg (by omega), if_pos rfl]
        decide
      · rw [if_pos rfl]
        decide
    · show sumS s (i + 2 + 1) = sumS s i
      rw [sumS, sumS, sumS, hc0, hc2, hc1]
      simp only [deltaC_lb, deltaC_rb, deltaC_cc]
      omega
  · -- [p] rewritten to SeekZero
    simp only [matchPat, Bool.and_eq_true, decide_eq_true_eq] at g2
    obtain ⟨e0, e1, e2, _⟩ := g2
    obtain ⟨hl0, hc0⟩ := getC_eq_char s i '[' (by decide) e0
    obtain ⟨hl1, hc1⟩ := getC_eq_char s (i + 1) 'p' (by decide) e1
    obtain ⟨hl2, hc2⟩ := getC_eq_char s (i + 2) ']' (by decide) e2
    refine balopt_window s _ i 3 rfl (by omega) ?_ ?_ ?_ hb
    · intro x hx
      simp only [updf]
      split_ifs <;> first | omega | rfl
    · intro x hx1 hx2
      simp only [updf]
      have : x = i ∨ x = i + 1 ∨ x = i + 2 := by omega
      rcases this with rfl | rfl | rfl
      · rw [if_neg (by omega), if_neg (by omega), if_pos rfl]
        decide
      · rw [if_neg (by omega), if_pos rfl]
        decide
      · rw [if_pos rfl]
        decide
    · show sumS s (i + 2 + 1) = sumS s i
      rw [sumS, sumS, sumS, hc0, hc2, hc1]
      simp only [deltaC_lb, deltaC_rb, deltaC_pp]
      omega
  · -- [cpcp] rewritten to MoveAdd
    obtain ⟨gm, _⟩ := g3
    simp only [matchPat, Bool.and_eq_true, decide_eq_true_eq] at gm
    obtain ⟨e0, e1, e2, e3, e4, e5, _⟩ := gm
    obtain ⟨hl0, hc0⟩ := getC_eq_char s i '[' (by decide) e0
    obtain ⟨hl1, hc1⟩ := getC_eq_char s (i + 1) 'c' (by decide) e1
    obtain ⟨hl2, hc2⟩ := getC_eq_char s (i + 2) 'p' (by decide) e2
    obtain ⟨hl3, hc3⟩ := getC_eq_char s (i + 3) 'c' (by decide) e3
    obtain ⟨hl4, hc4⟩ := getC_eq_char s (i + 4) 'p' (by decide) e4
    obtain ⟨hl5, hc5⟩ := getC_eq_char s (i + 5) ']' (by decide) e5
    refine balopt_window s _ i 6 rfl (by omega) ?_ ?_ ?_ hb
    · intro x hx
      simp only [updf]
      split_ifs <;> first | omega | rfl
    · intro x hx1 hx2
      simp only [updf]
      have : x = i ∨ x = i + 1 ∨ x = i + 2 ∨ x = i + 3 ∨ x = i + 4 ∨ x = i + 5 := by
        omega
      rcases this with rfl | rfl | rfl | rfl | rfl | rfl <;>
        (repeat rw [if_neg (by omega)]) <;> rw [if_pos rfl] <;> decide
    · show sumS s (i + 5 + 1) = sumS s i
      rw [sumS, sumS, sumS, sumS, sumS, sumS, hc0, hc1, hc2, hc3, hc4, hc5]
      simp only [deltaC_lb, deltaC_rb, deltaC_cc, deltaC_pp]
      omega
  · -- lone p folded into the pre-move array
    simp only [matchPat, Bool.and_eq_true, decide_eq_true_eq] at g4
    obtain ⟨e0, _⟩ := g4
    obtain ⟨hl0, hc0⟩ := getC_eq_char s i 'p' (by decide) e0
    refine balopt_window s _ i 1 (movWrite_len _ _ _) (by omega) ?_ ?_ ?_ hb
    · intro x hx
      rw [movWrite_code]
      simp only [updf]
      split_ifs <;> first | omega | rfl
    · intro x hx1 hx2
      rw [movWrite_code]
      simp only [updf]
      have : x = i := by omega
      subst this
      rw [if_pos rfl]
      decide
    · show sumS s (i + 1) = sumS s i
      rw [sumS, hc0, deltaC_pp]
      omega
  · exact hb

/-- The peephole loop preserves counting balance. -/
theorem balopt_peepLoop (fuel : Nat) :
    ∀ (i : Nat) (s : OptArr), BalOpt s → BalOpt (peepLoop fuel i s) := by
  induction fuel with
  | zero => intro i s hb; exact hb
  | succ fuel ih =>
    intro i s hb
    rw [peepLoop]
    by_cases hi : i < s.len
    · rw [if_pos hi]
      exact ih (i + 1) (peepStep s i) (balopt_peepStep s i hb)
    · rw [if_neg hi]
      exact hb

theorem preSumG_succ {α : Type} (δ : α → Int) (l : List α) (d : α) (p : Nat)
    (hp : p < l.length) :
    preSumG δ l (p + 1) = preSumG δ l p + δ (l.getD p d) := by
  unfold preSumG
  rw [List.take_succ, List.map_append, List.sum_append]
  congr 1
  rw [List.getD_eq_getElem l d hp]
  simp [List.getElem?_eq_getElem hp]

/-- Build the working-array balance from the folded list's balance. -/
theorem balopt_mk (s : OptArr) (l : List (Char × Int))
    (hcode : ∀ k, k < l.length → s.code k = (l.getD k (Char.ofNat 0, 0)).1)
    (hlen : s.len = l.length) (hb : BalCnt deltaP l) : BalOpt s := by
  have hs : ∀ p, p ≤ l.length → sumS s p = preSumG deltaP l p := by
    intro p
    induction p with
    | zero => intro _; rfl
    | succ p ih =>
      intro hp
      rw [sumS, ih (by omega), preSumG_succ deltaP l (Char.ofNat 0, 0) p (by omega),
        hcode p (by omega)]
      rfl
  constructor
  · intro p hp
    rw [hs p (by omega)]
    exact hb.1 p
  · rw [hlen, hs l.length (le_refl _), preSumG_length]
    exact hb.2

theorem sumS_eq_range (s : OptArr) (q : Nat) :
    sumS s q = ((List.range q).map (fun k => deltaC (s.code k))).sum := by
  induction q with
  | zero => rfl
  | succ q ih =>
    rw [sumS, ih, List.range_succ]
    simp

/-- The extracted triple list inherits counting balance from the array. -/
theorem balcnt_extract (s : OptArr) (hb : BalOpt s) :
    BalCnt deltaT (extract s) := by
  have hpre : ∀ p, preSumG deltaT (extract s) p = sumS s (min p s.len) := by
    intro p
    unfold preSumG extract
    rw [← List.map_take, List.take_range, List.map_map, sumS_eq_range]
    rfl
  constructor
  · intro p
    rw [hpre p]
    exact hb.1 _ (by omega)
  · have : (extract s).length = s.len := by simp [extract]
    rw [← preSumG_length, hpre, this, Nat.min_self]
    exact hb.2

theorem deltaB_encodeChar (c : Char) : deltaB (encodeChar c) = deltaC c := by
  unfold encodeChar
  split_ifs with h1 h2 h3 h4 h5 h6 h7 h8 h9
  · subst h1; decide
  · subst h2; decide
  · subst h3; decide
  · subst h4; decide
  · subst h5; decide
  · subst h6; decide
  · subst h7; decide
  · subst h8; decide
  · subst h9; decide
  · unfold deltaB deltaC
    rw [if_neg (by decide), if_neg (by decide), if_neg h3, if_neg h4]

/-- A validated source compiles to a bytecode stream with balanced bracket
counts. -/
theorem compile_bal (src : List Char) (hok : check_src src = .ok ()) :
    BalCnt deltaB (compileSrc src).bytecode := by
  obtain ⟨hnn, htot⟩ := check_ok_sums src hok
  have h0 : BalCnt deltaC src := by
    constructor
    · intro p
      rcases le_or_lt p src.length with hp | hp
      · exact hnn p hp
      · have : preSumG deltaC src p = preSumG deltaC src src.length := by
          unfold preSumG
          rw [List.take_of_length_le (by omega), List.take_of_length_le (le_refl _)]
        rw [this]
        exact hnn src.length (le_refl _)
    · rw [← preSumG_length]
      exact htot
  have h1 : BalCnt deltaC (strip_comments src) := by
    refine balcnt_of_corr deltaC deltaC src _ ?_ h0
    unfold strip_comments
    refine corr_filter deltaC _ ?_ src
    intro a ha
    unfold deltaC
    split_ifs with hb1 hb2
    · subst hb1
      exact absurd ha (by decide)
    · subst hb2
      exact absurd ha (by decide)
    · rfl
  have h2 : BalCnt deltaP (stageA (strip_comments src)) := by
    refine balcnt_of_corr deltaC deltaP _ _ ?_ h1
    unfold stageA
    refine corr_map deltaC deltaP _ ?_ _
    intro a
    exact deltaC_unify a
  have h3 : BalCnt deltaP (runfold (stageA (strip_comments src))) :=
    balcnt_of_corr deltaP deltaP _ _ (corr_runfold _) h2
  have h4 : BalOpt (optimS0 (strip_comments src)) :=
    balopt_mk _ _ (fun k _ => rfl) rfl h3
  have h5 : BalOpt (optimS1 (strip_comments src)) :=
    balopt_peepLoop _ 0 _ h4
  have h6 : BalCnt deltaT (extract (optimS1 (strip_comments src))) :=
    balcnt_extract _ h5
  have h7 : BalCnt deltaT (despace (optimS1 (strip_comments src))) := by
    refine balcnt_of_corr deltaT deltaT _ _ ?_ h6
    unfold despace
    refine corr_filter deltaT _ ?_ _
    intro a ha
    simp only [decide_eq_false_iff_not, not_not] at ha
    simp [deltaT, ha, deltaC]
  have h8 : BalCnt deltaB ((despace (optimS1 (strip_comments src))).map
      (fun t => encodeChar t.1)) := by
    refine balcnt_of_corr deltaT deltaB _ _ ?_ h7
    refine corr_map deltaT deltaB _ ?_ _
    intro a
    exact deltaB_encodeChar a.1
  exact h8

/-- Characters a normalized command can become after the first pass. -/
def okCmd (c : Char) : Prop :=
  c = 'c' ∨ c = 'p' ∨ c = '[' ∨ c = ']' ∨ c = '.' ∨ c = ','

/-- Characters present in the working string during the peephole pass. -/
def okWork (c : Char) : Prop :=
  okCmd c ∨ c = '0' ∨ c = 's' ∨ c = 'm' ∨ c = ' '

theorem stageA_chars (src : List Char) :
    ∀ t ∈ stageA (strip_comments src), okCmd t.1 := by
  intro t ht
  unfold stageA at ht
  rw [List.mem_map] at ht
  obtain ⟨c, hc, rfl⟩ := ht
  unfold strip_comments at hc
  rw [List.mem_filter] at hc
  have hm := hc.2
  simp only [List.mem_cons, List.not_mem_nil, or_false, decide_eq_true_eq] at hm
  rcases hm with rfl | rfl | rfl | rfl | rfl | rfl | rfl | rfl <;> simp [okCmd, unify]

theorem runfold_chars (P : Char → Prop) :
    ∀ l : List (Char × Int), (∀ t ∈ l, P t.1) → ∀ t ∈ runfold l, P t.1 := by
  intro l
  induction l with
  | nil =>
    intro _ t ht
    rw [runfold] at ht
    exact absurd ht (List.not_mem_nil t)
  | cons a rest ih =>
    obtain ⟨c, k⟩ := a
    intro h t ht
    rw [runfold] at ht
    have hhead : P c := h (c, k) (List.mem_cons_self _ _)
    have htail : ∀ t ∈ runfold rest, P t.1 :=
      ih (fun t' ht' => h t' (List.mem_cons_of_mem _ ht'))
    by_cases hcp : c = 'c' ∨ c = 'p'
    · rw [if_pos hcp] at ht
      rcases hr : runfold rest with _ | ⟨⟨c2, k2⟩, t2⟩
      · rw [hr] at ht
        simp only [List.mem_singleton] at ht
        subst ht
        exact hhead
      · rw [hr] at ht
        change t ∈ (if c2 = c then (c, k + k2) :: t2 else (c, k) :: (c2, k2) :: t2) at ht
        by_cases hc2 : c2 = c
        · rw [if_pos hc2] at ht
          rcases List.mem_cons.mp ht with rfl | hmem
          · exact hhead
          · exact htail t (by rw [hr]; exact List.mem_cons_of_mem _ hmem)
        · rw [if_neg hc2] at ht
          rcases List.mem_cons.mp ht with rfl | hmem
          · exact hhead
          · exact htail t (by rw [hr]; exact hmem)
    · rw [if_neg hcp] at ht
      rcases List.mem_cons.mp ht with rfl | hmem
      · exact hhead
      · exact htail t hmem

theorem peepStep_chars (s : OptArr) (i : Nat)
    (h : ∀ x, x < s.len → okWork (s.code x)) :
    ∀ x, x < s.len → okWork ((peepStep s i).code x) := by
  have hv0 : okWork '0' := by unfold okWork okCmd; simp
  have hvs : okWork 's' := by unfold okWork okCmd; simp
  have hvm : okWork 'm' := by unfold okWork okCmd; simp
  have hvsp : okWork ' ' := by unfold okWork okCmd; simp
  intro x hx
  unfold peepStep
  split_ifs
  · simp only [updf]
    split_ifs <;> first | exact hvsp | exact hv0 | exact h x hx
  · simp only [updf]
    split_ifs <;> first | exact hvsp | exact hvs | exact h x hx
  · simp only [updf]
    split_ifs <;> first | exact hvsp | exact hvm | exact h x hx
  · simp only [movWrite_code, updf]
    split_ifs <;> first | exact hvsp | exact h x hx
  · exact h x hx

theorem peepLoop_chars (fuel : Nat) :
    ∀ (i : Nat) (s : OptArr), (∀ x, x < s.len → okWork (s.code x)) →
      ∀ x, x < (peepLoop fuel i s).len → okWork ((peepLoop fuel i s).code x) := by
  induction fuel with
  | zero => intro i s h; exact h
  | succ fuel ih =>
    intro i s h
    rw [peepLoop]
    by_cases hi : i < s.len
    · rw [if_pos hi]
      refine ih (i + 1) (peepStep s i) ?_
      intro x hx
      rw [peepStep_len] at hx
      exact peepStep_chars s i h x hx
    · rw [if_neg hi]
      exact h

theorem encodeChar_ne_zero (c : Char) (hok : okWork c) (hsp : c ≠ ' ') :
    encodeChar c ≠ 0 := by
  unfold okWork okCmd at hok
  rcases hok with (rfl | rfl | rfl | rfl | rfl | rfl) | rfl | rfl | rfl | rfl <;>
    first | decide | exact absurd rfl hsp

/-- Every tag of the compiled bytecode stream is nonzero. -/
theorem compile_nonzero (src : List Char) :
    ∀ p, p < (compileSrc src).bytecode.length →
      (compileSrc src).bytecode.getD p 0 ≠ 0 := by
  intro p hp
  have hlen : p < ((despace (optimS1 (strip_comments src))).map
      (fun t => encodeChar t.1)).length := hp
  rw [show (compileSrc src).bytecode = (despace (optimS1 (strip_comments src))).map
      (fun t => encodeChar t.1) from rfl]
  rw [List.getD_eq_getElem _ _ hlen, List.getElem_map]
  have hlen2 : p < (despace (optimS1 (strip_comments src))).length := by
    simpa using hlen
  set t := (despace (optimS1 (strip_comments src))).get ⟨p, hlen2⟩ with ht
  show encodeChar t.1 ≠ 0
  have hmem : t ∈ despace (optimS1 (strip_comments src)) := by
    rw [ht]
    exact List.get_mem _ _ _
  rw [despace, List.mem_filter] at hmem
  obtain ⟨hext, hsp⟩ := hmem
  rw [extract, List.mem_map] at hext
  obtain ⟨k, hk, hkt⟩ := hext
  rw [List.mem_range] at hk
  have hchars := peepLoop_chars (optimS0 (strip_comments src)).len 0
    (optimS0 (strip_comments src)) ?_ k ?_
  · refine encodeChar_ne_zero t.1 ?_ ?_
    · rw [← hkt]
      exact hchars
    · intro hsp'
      rw [hsp'] at hsp
      simp at hsp
  · intro x hx
    show okWork ((optimS0 (strip_comments src)).code x)
    have hx' : x < (runfold (stageA (strip_comments src))).length := hx
    show okWork ((runfold (stageA (strip_comments src))).getD x (Char.ofNat 0, 0)).1
    rw [List.getD_eq_getElem _ _ hx']
    refine Or.inl (runfold_chars okCmd _ (stageA_chars src) _ (List.getElem_mem _))
  · exact hk

/-- Running bracket sum of the bytecode (terminator and out-of-range tags
weigh 0). -/
def sumB (code : List Nat) : Nat → Int
  | 0 => 0
  | p + 1 => sumB code p + deltaB (code.getD p 0)

theorem sumB_eq_preSumG (code : List Nat) (p : Nat) (hp : p ≤ code.length) :
    sumB code p = preSumG deltaB code p := by
  induction p with
  | zero => rfl
  | succ p ih =>
    rw [sumB, ih (by omega), preSumG_succ deltaB code 0 p (by omega)]

/-- Balanced segments of the bytecode: `[i, j)` is a well-nested sequence of
non-bracket tags and matched `3`/`4` pairs, with no terminator inside. -/
inductive BalSeg (code : List Nat) : Nat → Nat → Prop
  | nil (i : Nat) : BalSeg code i i
  | skip (i j : Nat) : code.getD i 0 ≠ 0 → code.getD i 0 ≠ 3 → code.getD i 0 ≠ 4 →
      BalSeg code (i + 1) j → BalSeg code i j
  | pair (i k j : Nat) : code.getD i 0 = 3 → code.getD k 0 = 4 →
      BalSeg code (i + 1) k → BalSeg code (k + 1) j → BalSeg code i j

theorem BalSeg.le (code : List Nat) (i j : Nat) (h : BalSeg code i j) : i ≤ j := by
  induction h with
  | nil => exact le_refl _
  | skip i j _ _ _ _ ih => omega
  | pair i k j _ _ _ _ ih1 ih2 => omega

theorem deltaB_of_ne (b : Nat) (h3 : b ≠ 3) (h4 : b ≠ 4) : deltaB b = 0 := by
  unfold deltaB
  rw [if_neg h3, if_neg h4]

theorem deltaB_neg (b : Nat) (h : deltaB b < 0) : b = 4 := by
  unfold deltaB at h
  split_ifs at h with h3 h4
  · omega
  · exact h4
  · omega

/-- A segment with nonnegative relative prefix sums, zero relative total and
no interior terminator is a balanced segment. -/
theorem balseg_of_sums (code : List Nat) :
    ∀ (n i j : Nat), j - i ≤ n → i ≤ j → j ≤ code.length →
      (∀ p, i ≤ p → p ≤ j → sumB code i ≤ sumB code p) →
      sumB code j = sumB code i →
      (∀ p, i ≤ p → p < j → code.getD p 0 ≠ 0) →
      BalSeg code i j := by
  intro n
  induction n with
  | zero =>
    intro i j hn hij _ _ _ _
    have : i = j := by omega
    subst this
    exact BalSeg.nil i
  | succ n ih =>
    intro i j hn hij hjlen hlow htot hnz
    rcases Nat.eq_or_lt_of_le hij with rfl | hlt
    · exact BalSeg.nil i
    by_cases hb3 : code.getD i 0 = 3
    · -- find the matching closer
      classical
      have hex : ∃ d, sumB code (i + 1 + d) ≤ sumB code i ∧ i + 1 + d ≤ j := by
        refine ⟨j - i - 1, ?_, by omega⟩
        have : i + 1 + (j - i - 1) = j := by omega
        rw [this, htot]
      set d0 := Nat.find hex with hd0
      obtain ⟨hm1, hm2⟩ := Nat.find_spec hex
      set m := i + 1 + d0 with hm
      have hmin : ∀ p, i < p → p < m → sumB code i < sumB code p := by
        intro p hp1 hp2
        have hd : p - i - 1 < d0 := by omega
        have := Nat.find_min hex hd
        push_neg at this
        have hle : i + 1 + (p - i - 1) = p := by omega
        by_contra hcon
        push_neg at hcon
        have := this (by rwa [hle])
        omega
      have hm_ge : i + 2 ≤ m := by
        by_contra hcon
        have hm1' : m = i + 1 := by omega
        rw [hm1'] at hm1
        rw [sumB, hb3] at hm1
        have : deltaB 3 = 1 := by decide
        omega
      set k := m - 1 with hk
      have hkm : k + 1 = m := by omega
      have hik : i < k := by omega
      have hsk : sumB code i < sumB code k := hmin k hik (by omega)
      have hstep : sumB code m = sumB code k + deltaB (code.getD k 0) := by
        rw [← hkm]
        rfl
      have hneg : deltaB (code.getD k 0) < 0 := by omega
      have hb4 : code.getD k 0 = 4 := deltaB_neg _ hneg
      have hd4 : deltaB (code.getD k 0) = -1 := by
        rw [hb4]
        decide
      have hsum_k : sumB code k = sumB code i + 1 := by omega
      have hsum_m : sumB code m = sumB code i := by omega
      have hseg1 : BalSeg code (i + 1) k := by
        refine ih (i + 1) k (by omega) (by omega) (by omega) ?_ ?_ ?_
        · intro p hp1 hp2
          have h1 : sumB code (i + 1) = sumB code i + 1 := by
            rw [sumB, hb3]
            have : deltaB 3 = 1 := by decide
            omega
          rcases Nat.eq_or_lt_of_le hp1 with rfl | hgt
          · omega
          · have := hmin p (by omega) (by omega)
            omega
        · have h1 : sumB code (i + 1) = sumB code i + 1 := by
            rw [sumB, hb3]
            have : deltaB 3 = 1 := by decide
            omega
          omega
        · intro p hp1 hp2
          exact hnz p (by omega) (by omega)
      have hseg2 : BalSeg code (k + 1) j := by
        rw [hkm]
        refine ih m j (by omega) (by omega) (by omega) ?_ ?_ ?_
        · intro p hp1 hp2
          have := hlow p (by omega) hp2
          omega
        · omega
        · intro p hp1 hp2
          exact hnz p (by omega) hp2
      exact BalSeg.pair i k j hb3 hb4 hseg1 hseg2
    · by_cases hb4 : code.getD i 0 = 4
      · exfalso
        have h1 : sumB code (i + 1) = sumB code i - 1 := by
          rw [sumB, hb4]
          have : deltaB 4 = -1 := by decide
          omega
        have := hlow (i + 1) (by omega) (by omega)
        omega
      · have hnz0 : code.getD i 0 ≠ 0 := hnz i (le_refl _) hlt
        have h1 : sumB code (i + 1) = sumB code i := by
          rw [sumB, deltaB_of_ne _ hb3 hb4]
          omega
        refine BalSeg.skip i j hnz0 hb3 hb4 ?_
        refine ih (i + 1) j (by omega) (by omega) (by omega) ?_ ?_ ?_
        · intro p hp1 hp2
          have := hlow p (by omega) hp2
          omega
        · omega
        · intro p hp1 hp2
          exact hnz p (by omega) hp2

theorem mbF_step_term (fuel : Nat) (code : List Nat) (coeff : Int → Int)
    (left : Int) (i : Nat) (h : code.getD i 0 = 0) :
    mbF (fuel + 1) code coeff left i = (coeff, 0) := by
  simp only [mbF]
  rw [h]

theorem mbF_step_close (fuel : Nat) (code : List Nat) (coeff : Int → Int)
    (left : Int) (i : Nat) (h : code.getD i 0 = 4) :
    mbF (fuel + 1) code coeff left i =
      (updf (updf coeff left ((i : Int) - left)) (i : Int) (left - (i : Int)),
        (i : Int)) := by
  simp only [mbF]
  rw [h]

theorem mbF_step_open (fuel : Nat) (code : List Nat) (coeff : Int → Int)
    (left : Int) (i : Nat) (h : code.getD i 0 = 3) :
    mbF (fuel + 1) code coeff left i =
      mbF fuel code (mbF fuel code coeff (i : Int) (i + 1)).1 left
        ((mbF fuel code coeff (i : Int) (i + 1)).2.toNat + 1) := by
  simp only [mbF]
  rw [h]

theorem mbF_step_skip (fuel : Nat) (code : List Nat) (coeff : Int → Int)
    (left : Int) (i : Nat) (h0 : code.getD i 0 ≠ 0) (h3 : code.getD i 0 ≠ 3)
    (h4 : code.getD i 0 ≠ 4) :
    mbF (fuel + 1) code coeff left i = mbF fuel code coeff left (i + 1) := by
  simp only [mbF]

/-- The bracket-offset postcondition of `match_brackets` on a resolved
region: every `[` tag points forward to a `]` tag carrying the negated
offset. -/
def BracketInv (code : List Nat) (coeff : Int → Int) (i j : Nat) : Prop :=
  ∀ p : Nat, i ≤ p → p < j → code.getD p 0 = 3 →
    0 < coeff (p : Int) ∧ p + (coeff (p : Int)).toNat < j ∧
    code.getD (p + (coeff (p : Int)).toNat) 0 = 4 ∧
    coeff ((p + (coeff (p : Int)).toNat : Nat) : Int) = -(coeff (p : Int))

/-- Scanning a balanced segment `[i, j)` that is terminated by a `]` at `j`:
`match_brackets` returns `j`, stores the mutual offsets for `left` and `j`,
resolves every nested pair inside, and touches nothing else. -/
theorem mb_close (code : List Nat) (i j : Nat) (hbal : BalSeg code i j) :
    code.getD j 0 = 4 →
    ∀ (coeff : Int → Int) (left : Int) (fuel : Nat),
      left < (i : Int) → j + 1 ≤ i + fuel →
      ∃ coeff',
        mbF fuel code coeff left i = (coeff', (j : Int)) ∧
        coeff' left = (j : Int) - left ∧
        coeff' (j : Int) = left - (j : Int) ∧
        (∀ x : Int, x ≠ left → (x < (i : Int) ∨ (j : Int) < x) → coeff' x = coeff x) ∧
        BracketInv code coeff' i j := by
  induction hbal with
  | nil i =>
    intro hj coeff left fuel hl hf
    cases fuel with
    | zero => omega
    | succ f =>
      refine ⟨_, mbF_step_close f code coeff left i hj, ?_, ?_, ?_, ?_⟩
      · have hne : left ≠ (i : Int) := by omega
        simp [updf, hne]
      · simp [updf]
      · intro x hxl hxr
        have hxi : x ≠ (i : Int) := by rcases hxr with h | h <;> omega
        simp [updf, hxi, hxl]
      · intro p hp1 hp2 _
        exact absurd hp2 (by omega)
  | skip i j h0 h3 h4 htail ih =>
    intro hj coeff left fuel hl hf
    have hij : i + 1 ≤ j := BalSeg.le code (i + 1) j htail
    cases fuel with
    | zero => omega
    | succ f =>
      rw [mbF_step_skip f code coeff left i h0 h3 h4]
      obtain ⟨coeff', heq, hle, hje, hun, hbr⟩ :=
        ih hj coeff left f (by push_cast; omega) (by omega)
      refine ⟨coeff', heq, hle, hje, ?_, ?_⟩
      · intro x hxl hxr
        refine hun x hxl ?_
        rcases hxr with h | h
        · left
          push_cast
          omega
        · right
          exact h
      · intro p hp1 hp2 hp3
        rcases Nat.eq_or_lt_of_le hp1 with rfl | hgt
        · exact absurd hp3 h3
        · exact hbr p (by omega) hp2 hp3
  | pair i k j hi3 hk4 hin hcont ih1 ih2 =>
    intro hj coeff left fuel hl hf
    have hik : i + 1 ≤ k := BalSeg.le code (i + 1) k hin
    have hkj : k + 1 ≤ j := BalSeg.le code (k + 1) j hcont
    cases fuel with
    | zero => omega
    | succ f =>
      rw [mbF_step_open f code coeff left i hi3]
      obtain ⟨c1, heq1, hle1, hke1, hun1, hbr1⟩ :=
        ih1 hk4 coeff (i : Int) f (by push_cast; omega) (by omega)
      rw [heq1]
      simp only [Int.toNat_natCast]
      obtain ⟨c2, heq2, hle2, hje2, hun2, hbr2⟩ :=
        ih2 hj c1 left f (by push_cast; omega) (by omega)
      refine ⟨c2, heq2, hle2, hje2, ?_, ?_⟩
      · intro x hxl hxr
        have hxi : x ≠ (i : Int) := by rcases hxr with h | h <;> push_cast at h ⊢ <;> omega
        have hcond : x < ((k + 1 : Nat) : Int) ∨ (j : Int) < x := by
          rcases hxr with h | h
          · left
            push_cast
            omega
          · right
            exact h
        rw [hun2 x hxl hcond]
        refine hun1 x hxi ?_
        rcases hxr with h | h
        · left
          push_cast
          omega
        · right
          push_cast
          omega
      · intro p hp1 hp2 hp3
        rcases Nat.lt_or_ge p (i + 1) with hpi | hpi
        · have hpe : p = i := by omega
          subst hpe
          have hc2p : c2 (p : Int) = c1 (p : Int) :=
            hun2 _ (by omega) (Or.inl (by push_cast; omega))
          rw [hc2p, hle1]
          refine ⟨by omega, by omega, ?_, ?_⟩
          · rw [show p + ((k : Int) - (p : Int)).toNat = k from by omega]
            exact hk4
          · rw [show p + ((k : Int) - (p : Int)).toNat = k from by omega]
            rw [hun2 (k : Int) (by omega) (Or.inl (by push_cast; omega)), hke1]
            omega
        · rcases Nat.lt_or_ge p (k + 1) with hpk | hpk
          · by_cases hpk2 : p = k
            · subst hpk2
              rw [hk4] at hp3
              exact absurd hp3 (by decide)
            · obtain ⟨hb1, hb2, hb3, hb4⟩ := hbr1 p (by omega) (by omega) hp3
              have hc2p : c2 (p : Int) = c1 (p : Int) :=
                hun2 _ (by omega) (Or.inl (by push_cast; omega))
              have hc2q : c2 ((p + (c1 (p : Int)).toNat : Nat) : Int) =
                  c1 ((p + (c1 (p : Int)).toNat : Nat) : Int) :=
                hun2 _ (by push_cast; omega) (Or.inl (by push_cast; omega))
              rw [hc2p]
              exact ⟨hb1, by omega, hb3, by rw [hc2q]; exact hb4⟩
          · exact hbr2 p (by omega) hp2 hp3

/-- Scanning a balanced segment `[i, j)` that ends at the terminator:
`match_brackets` returns 0, resolves every pair inside, and touches nothing
outside the segment. -/
theorem mb_end (code : List Nat) (i j : Nat) (hbal : BalSeg code i j) :
    code.getD j 0 = 0 →
    ∀ (coeff : Int → Int) (left : Int) (fuel : Nat),
      left < (i : Int) → j + 1 ≤ i + fuel →
      ∃ coeff',
        mbF fuel code coeff left i = (coeff', 0) ∧
        (∀ x : Int, x < (i : Int) ∨ (j : Int) ≤ x → coeff' x = coeff x) ∧
        BracketInv code coeff' i j := by
  induction hbal with
  | nil i =>
    intro hj coeff left fuel hl hf
    cases fuel with
    | zero => omega
    | succ f =>
      refine ⟨coeff, mbF_step_term f code coeff left i hj, fun x _ => rfl, ?_⟩
      intro p hp1 hp2 _
      exact absurd hp2 (by omega)
  | skip i j h0 h3 h4 htail ih =>
    intro hj coeff left fuel hl hf
    have hij : i + 1 ≤ j := BalSeg.le code (i + 1) j htail
    cases fuel with
    | zero => omega
    | succ f =>
      rw [mbF_step_skip f code coeff left i h0 h3 h4]
      obtain ⟨coeff', heq, hun, hbr⟩ :=
        ih hj coeff left f (by push_cast; omega) (by omega)
      refine ⟨coeff', heq, ?_, ?_⟩
      · intro x hxr
        refine hun x ?_
        rcases hxr with h | h
        · left
          push_cast
          omega
        · right
          exact h
      · intro p hp1 hp2 hp3
        rcases Nat.eq_or_lt_of_le hp1 with rfl | hgt
        · exact absurd hp3 h3
        · exact hbr p (by omega) hp2 hp3
  | pair i k j hi3 hk4 hin hcont ih1 ih2 =>
    intro hj coeff left fuel hl hf
    have hik : i + 1 ≤ k := BalSeg.le code (i + 1) k hin
    have hkj : k + 1 ≤ j := BalSeg.le code (k + 1) j hcont
    cases fuel with
    | zero => omega
    | succ f =>
      rw [mbF_step_open f code coeff left i hi3]
      obtain ⟨c1, heq1, hle1, hke1, hun1, hbr1⟩ :=
        mb_close code (i + 1) k hin hk4 coeff (i : Int) f (by push_cast; omega)
          (by omega)
      rw [heq1]
      simp only [Int.toNat_natCast]
      obtain ⟨c2, heq2, hun2, hbr2⟩ :=
        ih2 hj c1 left f (by push_cast; omega) (by omega)
      refine ⟨c2, heq2, ?_, ?_⟩
      · intro x hxr
        have hxi : x ≠ (i : Int) := by
          rcases hxr with h | h <;> omega
        have hcond : x < ((k + 1 : Nat) : Int) ∨ (j : Int) ≤ x := by
          rcases hxr with h | h
          · left
            push_cast
            omega
          · right
            exact h
        rw [hun2 x hcond]
        refine hun1 x hxi ?_
        rcases hxr with h | h
        · left
          push_cast
          omega
        · right
          push_cast
          omega
      · intro p hp1 hp2 hp3
        rcases Nat.lt_or_ge p (i + 1) with hpi | hpi
        · have hpe : p = i := by omega
          subst hpe
          have hc2p : c2 (p : Int) = c1 (p : Int) :=
            hun2 _ (Or.inl (by push_cast; omega))
          rw [hc2p, hle1]
          refine ⟨by omega, by omega, ?_, ?_⟩
          · rw [show p + ((k : Int) - (p : Int)).toNat = k from by omega]
            exact hk4
          · rw [show p + ((k : Int) - (p : Int)).toNat = k from by omega]
            rw [hun2 (k : Int) (Or.inl (by push_cast; omega)), hke1]
            omega
        · rcases Nat.lt_or_ge p (k + 1) with hpk | hpk
          · by_cases hpk2 : p = k
            · subst hpk2
              rw [hk4] at hp3
              exact absurd hp3 (by decide)
            · obtain ⟨hb1, hb2, hb3, hb4⟩ := hbr1 p (by omega) (by omega) hp3
              have hc2p : c2 (p : Int) = c1 (p : Int) :=
                hun2 _ (Or.inl (by push_cast; omega))
              have hc2q : c2 ((p + (c1 (p : Int)).toNat : Nat) : Int) =
                  c1 ((p + (c1 (p : Int)).toNat : Nat) : Int) :=
                hun2 _ (Or.inl (by push_cast; omega))
              rw [hc2p]
              exact ⟨hb1, by omega, hb3, by rw [hc2q]; exact hb4⟩
          · exact hbr2 p (by omega) hp2 hp3

/-- C6: after jump resolution of any validated program, every `[`-class
instruction at position `p` carries a positive operand `o`, and there is
exactly one `]`-class instruction at position `p + o`, whose operand is
`-o` — the two offsets are mutual inverses. -/
theorem c6_bracket_offsets_inverse (src : List Char)
    (hok : check_src src = .ok ())
    (p : Nat) (hp : p < (compileSrc src).bytecode.length)
    (h3 : (compileSrc src).bytecode.getD p 0 = 3) :
    0 < (compileSrc src).coeff (p : Int) ∧
    ∃! q : Nat, (q : Int) = (p : Int) + (compileSrc src).coeff (p : Int) ∧
      (compileSrc src).bytecode.getD q 0 = 4 ∧
      (compileSrc src).coeff (q : Int) = -((compileSrc src).coeff (p : Int)) := by
  have hbal : BalCnt deltaB (compileSrc src).bytecode := compile_bal src hok
  have hseg : BalSeg (compileSrc src).bytecode 0 (compileSrc src).bytecode.length := by
    refine balseg_of_sums _ (compileSrc src).bytecode.length 0
      (compileSrc src).bytecode.length (by omega) (by omega) (le_refl _) ?_ ?_ ?_
    · intro q _ hq2
      rw [sumB_eq_preSumG _ q hq2]
      have h0 : sumB (compileSrc src).bytecode 0 = 0 := rfl
      rw [h0]
      exact hbal.1 q
    · rw [sumB_eq_preSumG _ _ (le_refl _), preSumG_length]
      have h0 : sumB (compileSrc src).bytecode 0 = 0 := rfl
      rw [h0]
      exact hbal.2
    · intro q _ hq2
      exact compile_nonzero src q hq2
  have hterm : (compileSrc src).bytecode.getD (compileSrc src).bytecode.length 0 = 0 :=
    List.getD_eq_default _ _ (le_refl _)
  obtain ⟨coeff', heq, hun, hbr⟩ :=
    mb_end (compileSrc src).bytecode 0 (compileSrc src).bytecode.length hseg hterm
      (fun x => if 0 ≤ x then
        ((despace (optimS1 (strip_comments src))).map (fun t => t.2.1)).getD x.toNat 0
       else 0)
      (-1) ((compileSrc src).bytecode.length + 2) (by omega) (by omega)
  have hcc : (compileSrc src).coeff = coeff' := by
    show (mbF ((compileSrc src).bytecode.length + 2) (compileSrc src).bytecode
      (fun x => if 0 ≤ x then
        ((despace (optimS1 (strip_comments src))).map (fun t => t.2.1)).getD x.toNat 0
       else 0) (-1) 0).1 = coeff'
    rw [heq]
  rw [hcc]
  obtain ⟨hb1, hb2, hb3, hb4⟩ := hbr p (by omega) hp h3
  refine ⟨hb1, ⟨p + (coeff' (p : Int)).toNat, ⟨?_, hb3, hb4⟩, ?_⟩⟩
  · push_cast
    omega
  · intro q' hq'
    have h1 := hq'.1
    omega

/-- Witness for C6 at the validated program `"[+]"`, whose compiled stream is
`[3, 1, 4]` with resolved offsets 2 and -2. -/
theorem c6_witness :
    0 < (compileSrc ('[' :: '+' :: ']' :: [])).coeff ((0 : Nat) : Int) ∧
    ∃! q : Nat, (q : Int) = ((0 : Nat) : Int) +
        (compileSrc ('[' :: '+' :: ']' :: [])).coeff ((0 : Nat) : Int) ∧
      (compileSrc ('[' :: '+' :: ']' :: [])).bytecode.getD q 0 = 4 ∧
      (compileSrc ('[' :: '+' :: ']' :: [])).coeff (q : Int) =
        -((compileSrc ('[' :: '+' :: ']' :: [])).coeff ((0 : Nat) : Int)) :=
  c6_bracket_offsets_inverse ('[' :: '+' :: ']' :: []) (by rfl) 0 (by decide) (by rfl)
